import Mathlib

/-!
FileBackend (src/Backends/File/FileBackend.cxx)

A shallow embedding of `FileBackend` and of the library functions it calls,
followed by theorems about them. The library functions are embedded from the
Boost headers: `basic_ptree` (property_tree/detail/ptree_implementation.hpp),
`string_path` (property_tree/string_path.hpp), `id_translator`
(property_tree/id_translator.hpp), `read_ini` (property_tree/ini_parser.hpp),
`trim` (property_tree/detail/ptree_utils.hpp) and `ends_with`
(algorithm/string/predicate.hpp).

Strings are `String`; character-level work is done on `String.data`.
A C++ function that takes a tree by reference and may throw is a function
returning the final value of the tree together with the exception thrown,
if any.
-/

/-! ## Exceptions -/

/-- The values the code throws: `std::runtime_error(what)`, a bare
`std::string` (FileBackend.cxx line 48) and boost's `ptree_bad_path`. -/
inductive Thrown where
  | runtime_error (what : String)
  | string (s : String)
  | ptree_bad_path (what : String)
  deriving DecidableEq, Repr

/-- The exception `boost::property_tree::ini_parser::ini_parser_error`
(`file_parser_error`): `message()`, `filename()`, `line()`. -/
structure ini_parser_error where
  message : String
  filename : String
  line : Nat
  deriving DecidableEq, Repr

/-! ## boost::property_tree::basic_ptree -/

/-- The tree `boost::property_tree::ptree`: the node's own data and the
ordered sequence of (key, child) pairs. -/
inductive ptree where
  | mk (m_data : String) (m_children : List (String × ptree))

namespace ptree

/-- Member `data()`. -/
def data : ptree → String
  | mk d _ => d

/-- The children, in insertion order. -/
def children : ptree → List (String × ptree)
  | mk _ c => c

/-- Member `empty()`: the node has no children. -/
def empty (t : ptree) : Bool := t.children.isEmpty

/-- Lookup used by `find`: the first pair with the given key. -/
def assoc_find (key : String) : List (String × ptree) → Option ptree
  | [] => none
  | (k, v) :: rest => if k = key then some v else assoc_find key rest

/-- Member `find(key)`: the child with that key, `none` for `not_found()`. -/
def find (t : ptree) (key : String) : Option ptree := assoc_find key t.children

/-- Member `push_back(value)`. -/
def push_back (t : ptree) (value : String × ptree) : ptree :=
  mk t.data (t.children ++ [value])

end ptree

/-! ## boost::property_tree::string_path -/

/-- The translator `id_translator<std::string>::get_value`: always a value. -/
def id_translator_get_value (v : String) : Option String := some v

/-- A `string_path`: the separator and the characters from `m_start` to the
end of `m_value`. -/
structure string_path where
  rest : List Char
  m_separator : Char

namespace string_path

/-- Constructor `path_type(value, separator)`: `m_start` is `m_value.begin()`. -/
def ofString (value : String) (separator : Char) : string_path :=
  ⟨value.data, separator⟩

/-- Member `empty()`: `m_start == m_value.end()`. -/
def empty (p : string_path) : Bool := p.rest.isEmpty

/-- Member `reduce()`: `next_sep = find(m_start, end, m_separator)`, the part is
`[m_start, next_sep)`, `m_start` moves to `next_sep` and one further unless it
is the end; the part goes through the translator, whose failure throws
`ptree_bad_path`. Returns the key (or the exception) and the advanced path. -/
def reduce (p : string_path) : Except Thrown String × string_path :=
  let part := p.rest.takeWhile (fun c => c != p.m_separator)
  let next_sep := p.rest.dropWhile (fun c => c != p.m_separator)
  let p1 : string_path := ⟨next_sep.drop 1, p.m_separator⟩
  match id_translator_get_value ⟨part⟩ with
  | some key => (.ok key, p1)
  | none => (.error (.ptree_bad_path "Path syntax error"), p1)

end string_path

/-- Member `basic_ptree::walk_path(p)`: the node at the end of the path, `none`
for the null pointer. -/
def ptree.walk_path (t : ptree) (p : string_path) : Except Thrown (Option ptree) :=
  if _h : p.empty = true then .ok (some t)
  else
    match (p.reduce).1 with
    | .error e => .error e
    | .ok fragment =>
      match t.find fragment with
      | none => .ok none
      | some el => ptree.walk_path el (p.reduce).2
termination_by p.rest.length
decreasing_by
  obtain ⟨rest, sep⟩ := p
  have h1 : (string_path.reduce ⟨rest, sep⟩).2.rest
      = (rest.dropWhile (fun c => c != sep)).drop 1 := by
    simp [string_path.reduce, id_translator_get_value]
  rw [h1]
  cases rest with
  | nil => simp [string_path.empty] at _h
  | cons c cs =>
    have h2 := (List.dropWhile_suffix (fun c => c != sep) (l := c :: cs)).length_le
    simp only [List.length_drop, List.length_cons] at *
    omega

/-- Member `get_child_optional(path)`. -/
def ptree.get_child_optional (t : ptree) (path : string_path) :
    Except Thrown (Option ptree) :=
  t.walk_path path

/-- Member `get_value_optional<std::string>()`: the data through the identity
translator. -/
def ptree.get_value_optional (t : ptree) : Option String :=
  id_translator_get_value t.data

/-- Member `get_optional<std::string>(path)`. -/
def ptree.get_optional (t : ptree) (path : string_path) :
    Except Thrown (Option String) :=
  match t.get_child_optional path with
  | .error e => .error e
  | .ok (some child) => .ok child.get_value_optional
  | .ok none => .ok none

/-! ## boost::property_tree::detail::trim and std::string helpers -/

/-- The test `std::isspace(c, loc)` in the classic locale: space, and the
control characters `\t \n \v \f \r` (codes 9 to 13). -/
def isspace (c : Char) : Bool := c = ' ' || (9 ≤ c.toNat && c.toNat ≤ 13)

/-- The function `detail::trim(s, loc)`, on characters: `first` skips the leading
white space, `last` steps back over the trailing white space, the result is
`[first, last + 1)` (empty when the string is all white space). -/
def trim_chars (s : List Char) : List Char :=
  ((s.dropWhile isspace).reverse.dropWhile isspace).reverse

/-- Member `std::string::find(ch)`: the index of the first occurrence, `none`
for `npos`. -/
def str_find (ch : Char) : List Char → Option Nat
  | [] => none
  | c :: cs => if c = ch then some 0 else (str_find ch cs).map (· + 1)

/-- Member `std::string::substr(pos, n)`. -/
def substr (s : List Char) (pos n : Nat) : List Char := (s.drop pos).take n

/-- Member `std::string::substr(pos)` (to the end, `n = npos`). -/
def substr_from (s : List Char) (pos : Nat) : List Char := s.drop pos

/-- Cut a character sequence at every occurrence of `sep`: `n` occurrences give
`n + 1` pieces, empty ones included. -/
def split_at (sep : Char) : List Char → List (List Char)
  | [] => [[]]
  | c :: cs =>
    if c = sep then [] :: split_at sep cs
    else
      match split_at sep cs with
      | [] => [[c]]
      | l :: ls => (c :: l) :: ls

/-- The pieces that successive `std::getline` calls return while the stream is
`good()`: the text is cut at every newline character; the last piece (it may
be empty) is the one that hits end of file, after which the loop stops. -/
def getlines (content : List Char) : List (List Char) := split_at '\n' content

/-! ## boost::property_tree::ini_parser::read_ini -/

/-- The local variables of `read_ini(stream, pt)`. The pointer `section`, when
set, points at the child pushed last to `local`; that child is kept apart in
`section_node` and the children pushed before it in `local_children`, so the
C++ `local` has the children `local_children ++ section_node.toList`. -/
structure ini_locals where
  local_children : List (String × ptree)
  section_node : Option (String × ptree)

namespace ini_locals

/-- The state before the first line: `Ptree local; Ptree *section = 0;`. -/
def init : ini_locals := ⟨[], none⟩

/-- The children of `local` after
`if (section && section->empty()) local.pop_back();`. -/
def drop_empty_section (st : ini_locals) : List (String × ptree) :=
  match st.section_node with
  | none => st.local_children
  | some (name, node) =>
    if node.empty then st.local_children else st.local_children ++ [(name, node)]

end ini_locals

/-- The body of the `while (stream.good())` loop of `read_ini` for one line
that `getline` returned, numbered `line_no`. -/
def read_ini_line (st : ini_locals) (line_no : Nat) (raw : List Char) :
    Except ini_parser_error ini_locals :=
  let line := trim_chars raw
  match line with
  | [] => .ok st
  | c0 :: _ =>
    if c0 = ';' ∨ c0 = '#' then .ok st
    else if c0 = '[' then
      let local1 := st.drop_empty_section
      match str_find ']' line with
      | none => .error ⟨"unmatched '['", "", line_no⟩
      | some e =>
        let key : String := ⟨trim_chars (substr line 1 (e - 1))⟩
        if (ptree.assoc_find key local1).isSome then
          .error ⟨"duplicate section name", "", line_no⟩
        else .ok ⟨local1, some (key, ptree.mk "" [])⟩
    else
      match str_find '=' line with
      | none => .error ⟨"'=' character not found in line", "", line_no⟩
      | some eqpos =>
        if eqpos = 0 then .error ⟨"key expected", "", line_no⟩
        else
          let key : String := ⟨trim_chars (substr line 0 eqpos)⟩
          let data : String := ⟨trim_chars (substr_from line (eqpos + 1))⟩
          match st.section_node with
          | some (name, node) =>
            if (node.find key).isSome then
              .error ⟨"duplicate key name", "", line_no⟩
            else .ok ⟨st.local_children, some (name, node.push_back (key, ptree.mk data []))⟩
          | none =>
            if (ptree.assoc_find key st.local_children).isSome then
              .error ⟨"duplicate key name", "", line_no⟩
            else .ok ⟨st.local_children ++ [(key, ptree.mk data [])], none⟩

/-- The `while (stream.good())` loop: `line_no` is the number of lines read so
far, it is incremented before each `getline`. -/
def read_ini_loop (st : ini_locals) (line_no : Nat) :
    List (List Char) → Except ini_parser_error ini_locals
  | [] => .ok st
  | raw :: more =>
    match read_ini_line st (line_no + 1) raw with
    | .error e => .error e
    | .ok st1 => read_ini_loop st1 (line_no + 1) more

/-- The overload `read_ini(stream, pt)`: parse into `local`, drop a last
empty section, then `pt.swap(local)`. Returns the final value of `pt` and the
exception thrown, if any. -/
def read_ini_stream (content : String) (pt : ptree) : ptree × Option ini_parser_error :=
  match read_ini_loop ini_locals.init 0 (getlines content.data) with
  | .error e => (pt, some e)
  | .ok st => (ptree.mk "" st.drop_empty_section, none)

/-- The overload `read_ini(filename, pt)`: open the file (`fs filename` is its
content, `none` when it cannot be opened), parse the stream and rethrow a
parser error with the file name filled in. -/
def read_ini (fs : String → Option String) (filename : String) (pt : ptree) :
    ptree × Option ini_parser_error :=
  match fs filename with
  | none => (pt, some ⟨"cannot open file", filename, 0⟩)
  | some content =>
    match read_ini_stream content pt with
    | (pt1, some e) => (pt1, some ⟨e.message, filename, e.line⟩)
    | (pt1, none) => (pt1, none)

/-! ## boost::algorithm::ends_with -/

/-- The predicate `boost::algorithm::ends_with(input, test)`: `test` is a
suffix of `input`, compared character by character. -/
def ends_with (input test : String) : Bool := test.data.isSuffixOf input.data

/-! ## FileBackend.cxx -/

/-- What a call of `loadConfigFile` leaves behind: the final value of the tree
passed by reference, the exception thrown (if any), and the file names
`read_ini` was called with, in call order. -/
structure LoadResult where
  pt : ptree
  thrown : Option Thrown
  read_ini_calls : List String

/-- The text built in the `catch` block, lines 42 to 48. -/
def parse_error_text (perr : ini_parser_error) : String :=
  if perr.line ≠ 0 then
    perr.message ++ " in " ++ perr.filename ++ " line " ++ toString perr.line
  else
    perr.message ++ " " ++ perr.filename

/-- The `for (auto suffix : ...)` loop of `loadConfigFile`, lines 36 to 53, over
the suffixes still to be tried. -/
def loadConfigFile_loop (fs : String → Option String) (filePath : String) (pt : ptree) :
    List String → LoadResult
  | [] => ⟨pt, some (.runtime_error "Invalid type in file name"), []⟩
  | suffix :: more =>
    if ends_with filePath suffix then
      match read_ini fs filePath pt with
      | (pt1, some perr) => ⟨pt1, some (.string (parse_error_text perr)), [filePath]⟩
      | (pt1, none) => ⟨pt1, none, [filePath]⟩
    else loadConfigFile_loop fs filePath pt more

/-- The function `loadConfigFile(filePath, pt)`, lines 31 to 54. -/
def loadConfigFile (fs : String → Option String) (filePath : String) (pt : ptree) :
    LoadResult :=
  if filePath.length = 0 then ⟨pt, some (.runtime_error "Invalid argument"), []⟩
  else loadConfigFile_loop fs filePath pt [".ini", ".cfg"]

/-- The members of `FileBackend`; `mSeparator` is what `getSeparator()` returns. -/
structure FileBackend where
  mFilePath : String
  mPropertyTree : ptree
  mSeparator : Char

namespace FileBackend

/-- Modelled from the spec: the separator of a new backend (`getSeparator()` is
declared in a header that is not part of the sources); the default is `.`. -/
def defaultSeparator : Char := '.'

/-- The constructor `FileBackend::FileBackend(filePath)`, lines 56 to 60: the
tree starts default-constructed; an exception leaves no object. -/
def construct (fs : String → Option String) (filePath : String) : Except Thrown FileBackend :=
  let r := loadConfigFile fs filePath (ptree.mk "" [])
  match r.thrown with
  | some e => .error e
  | none => .ok ⟨filePath, r.pt, defaultSeparator⟩

/-- The member `FileBackend::putString`, lines 62 to 65: the state afterwards
and the exception thrown. -/
def putString (b : FileBackend) (_path _value : String) : FileBackend × Option Thrown :=
  (b, some (.runtime_error "FileBackend does not support putting values"))

/-- The member `FileBackend::getString`, lines 67 to 71. -/
def getString (b : FileBackend) (path : String) : Except Thrown (Option String) :=
  b.mPropertyTree.get_optional (string_path.ofString path b.mSeparator)

/-- The member `FileBackend::setPrefix`, lines 73 to 77: the state afterwards and
the exception thrown. -/
def setPrefix (fs : String → Option String) (b : FileBackend) (path : String) :
    FileBackend × Option Thrown :=
  let b1 : FileBackend := ⟨path, b.mPropertyTree, b.mSeparator⟩
  let r := loadConfigFile fs b1.mFilePath b1.mPropertyTree
  (⟨b1.mFilePath, r.pt, b1.mSeparator⟩, r.thrown)

/-- Modelled from the spec: the separator is configurable per backend instance
(the setter is declared in a header that is not part of the sources). -/
def setSeparator (b : FileBackend) (c : Char) : FileBackend :=
  ⟨b.mFilePath, b.mPropertyTree, c⟩

end FileBackend

/-! ## Path segments -/

/-- The keys that successive `reduce()` calls return until the path is
`empty()`: the segments `walk_path` looks up, in order. -/
def string_path.fragments (p : string_path) : List String :=
  if _h : p.empty = true then []
  else
    match (p.reduce).1 with
    | .error _ => []
    | .ok fragment => fragment :: string_path.fragments (p.reduce).2
termination_by p.rest.length
decreasing_by
  obtain ⟨rest, sep⟩ := p
  have h1 : (string_path.reduce ⟨rest, sep⟩).2.rest
      = (rest.dropWhile (fun c => c != sep)).drop 1 := by
    simp [string_path.reduce, id_translator_get_value]
  rw [h1]
  cases rest with
  | nil => simp [string_path.empty] at _h
  | cons c cs =>
    have h2 := (List.dropWhile_suffix (fun c => c != sep) (l := c :: cs)).length_le
    simp only [List.length_drop, List.length_cons] at *
    omega

/-- Walk a list of child names from a node: `none` as soon as a name has no
child. -/
def ptree.walk_segments (t : ptree) : List String → Option ptree
  | [] => some t
  | s :: ss =>
    match t.find s with
    | none => none
    | some el => ptree.walk_segments el ss

/-- The path split as the specification words it: the full list of pieces
between separators, every empty piece kept. -/
def spec_split (separator : Char) (path : String) : List String :=
  (split_at separator path.data).map String.mk

/-- Remove the last element of a list of segments when it is the empty
string. -/
def drop_trailing_empty (segs : List String) : List String :=
  if segs.getLast? = some "" then segs.dropLast else segs

/-- Structural form of the segments of a path: as `split_at`, but the end of
the text closes no further (empty) piece. -/
def path_segments (sep : Char) : List Char → List (List Char)
  | [] => []
  | c :: cs =>
    if c = sep then [] :: path_segments sep cs
    else
      match path_segments sep cs with
      | [] => [[c]]
      | l :: ls => (c :: l) :: ls

/-! ## The specification's vocabulary -/

/-- The failure the specification calls `InvalidLocator`: the exception of
line 33. -/
def InvalidLocator : Thrown := .runtime_error "Invalid argument"

/-- The failure the specification calls `UnsupportedFormat`: the exception of
line 53. -/
def UnsupportedFormat : Thrown := .runtime_error "Invalid type in file name"

/-- The failure the specification calls `UnsupportedOperation`: the exception
of line 64. -/
def UnsupportedOperation : Thrown := .runtime_error "FileBackend does not support putting values"

/-- The failure the specification calls `ParseError`: the text thrown at
line 48. -/
def ParseError (text : String) : Thrown := .string text

/-- The locator ends with one of the registered suffixes, `.ini` or `.cfg`. -/
def has_registered_suffix (locator : String) : Prop :=
  (∃ pre : String, locator = pre ++ ".ini") ∨ (∃ pre : String, locator = pre ++ ".cfg")

/-- The backend states that the constructor and the member functions
produce. -/
inductive FileBackend.Loaded : FileBackend → Prop
  | construct (fs : String → Option String) (filePath : String) (b : FileBackend) :
      FileBackend.construct fs filePath = .ok b → FileBackend.Loaded b
  | setPrefix (fs : String → Option String) (b : FileBackend) (path : String) :
      FileBackend.Loaded b → FileBackend.Loaded (FileBackend.setPrefix fs b path).1
  | putString (b : FileBackend) (path value : String) :
      FileBackend.Loaded b → FileBackend.Loaded (FileBackend.putString b path value).1
  | setSeparator (b : FileBackend) (c : Char) :
      FileBackend.Loaded b → FileBackend.Loaded (FileBackend.setSeparator b c)

/-- The stored locator is the locator the stored tree was loaded from, the
files being `fs`: loading that locator succeeds and gives exactly the stored
tree. -/
def FileBackend.locator_matches_tree (fs : String → Option String) (b : FileBackend) : Prop :=
  ∀ pt : ptree, (loadConfigFile fs b.mFilePath pt).thrown = none ∧
    (loadConfigFile fs b.mFilePath pt).pt = b.mPropertyTree

/-- The backend states in which the last load succeeded, the files being `fs`:
the state after a successful constructor call or a successful `setPrefix`
call (from any state), and after the `putString` calls and separator changes
that follow. -/
inductive FileBackend.LoadSucceeded (fs : String → Option String) : FileBackend → Prop
  | construct (filePath : String) (b : FileBackend) :
      FileBackend.construct fs filePath = .ok b → FileBackend.LoadSucceeded fs b
  | setPrefix (b : FileBackend) (path : String) :
      (FileBackend.setPrefix fs b path).2 = none →
      FileBackend.LoadSucceeded fs (FileBackend.setPrefix fs b path).1
  | putString (b : FileBackend) (path value : String) :
      FileBackend.LoadSucceeded fs b →
      FileBackend.LoadSucceeded fs (FileBackend.putString b path value).1
  | setSeparator (b : FileBackend) (c : Char) :
      FileBackend.LoadSucceeded fs b →
      FileBackend.LoadSucceeded fs (FileBackend.setSeparator b c)

/-- The files of the specification's scenario, and a few more. -/
def scenario_fs : String → Option String := fun name =>
  if name = "a.ini" then some "[sec]\nkey=value1"
  else if name = "b.ini" then some "[sec]\nkey=value2"
  else if name = "old.cfg" then some "[sec]\nkey=value1\nonly_old=x"
  else if name = "new.cfg" then some "top=0\n[sec]\nkey=value2\nonly_new=y"
  else if name = "broken.ini" then some "[sec]\nkey"
  else if name = "dotted.ini" then some "a.b=1"
  else none

/-- The tree that `a.ini` of the scenario loads to. -/
def scenario_tree : ptree :=
  .mk "" [("sec", .mk "" [("key", .mk "value1" [])])]

/-- The backend after `FileBackend("a.ini")` in the scenario. -/
def scenario_backend : FileBackend := ⟨"a.ini", scenario_tree, '.'⟩

/-- The backend after `FileBackend("old.cfg")` with the files `scenario_fs`. -/
def scenario_old_backend : FileBackend :=
  ⟨"old.cfg", .mk "" [("sec", .mk "" [("key", .mk "value1" []), ("only_old", .mk "x" [])])], '.'⟩

/-- The shape of a child of the root in a tree that `read_ini` builds: a key
(a node without children) or a section (empty data, and every child a node
without children). -/
def ptree.ini_child (t : ptree) : Prop :=
  t.children = [] ∨ (t.data = "" ∧ ∀ kv ∈ t.children, kv.2.children = [])

/-- The shape of a tree that `read_ini` builds: the root has empty data and its
children are keys or sections. -/
def ptree.ini_shaped (t : ptree) : Prop :=
  t.data = "" ∧ ∀ kv ∈ t.children, kv.2.ini_child

/-- The invariant of the parser's local state: the children of `local` are keys
or sections, and the current section is a section. -/
def ini_locals.shaped (st : ini_locals) : Prop :=
  (∀ kv ∈ st.local_children, kv.2.ini_child) ∧
  (∀ s, st.section_node = some s → s.2.data = "" ∧ ∀ kv ∈ s.2.children, kv.2.children = [])

/-! ## INI content, for the round trip -/

/-- INI-like content as the specification describes it: top-level `key=value`
lines followed by `[section]` blocks of `key=value` lines. -/
structure IniContent where
  top : List (String × String)
  sections : List (String × List (String × String))

namespace IniContent

/-- The line `key=value`. -/
def key_line (kv : String × String) : String := kv.1 ++ "=" ++ kv.2

/-- The lines of the section blocks: `[name]` and then the section's keys. -/
def section_lines : List (String × List (String × String)) → List String
  | [] => []
  | s :: more => ("[" ++ s.1 ++ "]") :: (s.2.map key_line ++ section_lines more)

/-- All lines of the content. -/
def lines (c : IniContent) : List String := c.top.map key_line ++ section_lines c.sections

/-- Lines joined by newline characters. -/
def join_lines : List String → String
  | [] => ""
  | [l] => l
  | l :: l2 :: ls => l ++ "\n" ++ join_lines (l2 :: ls)

/-- The text of the file. -/
def text (c : IniContent) : String := join_lines c.lines

end IniContent

/-! ## Theorems -/

open FileBackend

/-! ## Path walk: the recursive walk and the list of segments -/

theorem ptree.walk_path_unfold (t : ptree) (p : string_path) :
    t.walk_path p =
      if p.empty = true then .ok (some t)
      else
        match (p.reduce).1 with
        | .error e => .error e
        | .ok fragment =>
          match t.find fragment with
          | none => .ok none
          | some el => ptree.walk_path el (p.reduce).2 := by
  rw [ptree.walk_path]
  split <;> rfl

theorem string_path.fragments_unfold (p : string_path) :
    p.fragments =
      if p.empty = true then []
      else
        match (p.reduce).1 with
        | .error _ => []
        | .ok fragment => fragment :: string_path.fragments (p.reduce).2 := by
  rw [string_path.fragments]
  split <;> rfl

theorem string_path.reduce_eq (rest : List Char) (sep : Char) :
    string_path.reduce ⟨rest, sep⟩ =
      (.ok ⟨rest.takeWhile (fun c => c != sep)⟩,
        ⟨(rest.dropWhile (fun c => c != sep)).drop 1, sep⟩) := by
  simp [string_path.reduce, id_translator_get_value]

theorem path_segments_cons (sep : Char) (c : Char) (cs : List Char) :
    path_segments sep (c :: cs) =
      (c :: cs).takeWhile (fun c => c != sep) ::
        path_segments sep (((c :: cs).dropWhile (fun c => c != sep)).drop 1) := by
  induction cs generalizing c with
  | nil =>
    by_cases h : c = sep
    · simp [path_segments, h]
    · have hb : (c != sep) = true := by simpa using h
      simp [path_segments, h, List.takeWhile_cons, List.dropWhile_cons, hb]
  | cons d ds ih =>
    by_cases h : c = sep
    · simp [path_segments, h]
    · have hb : (c != sep) = true := by simpa using h
      rw [path_segments, if_neg h, ih d]
      simp only [List.takeWhile_cons (a := c), List.dropWhile_cons (x := c), hb, if_true]

theorem drop_sep_length_lt (sep c : Char) (cs : List Char) :
    (((c :: cs).dropWhile (fun c => c != sep)).drop 1).length < (c :: cs).length := by
  have h2 := (List.dropWhile_suffix (fun c => c != sep) (l := c :: cs)).length_le
  simp only [List.length_drop, List.length_cons] at *
  omega

theorem string_path.fragments_eq (sep : Char) (rest : List Char) :
    string_path.fragments ⟨rest, sep⟩ = (path_segments sep rest).map String.mk := by
  have key : ∀ n (rest : List Char), rest.length ≤ n →
      string_path.fragments ⟨rest, sep⟩ = (path_segments sep rest).map String.mk := by
    intro n
    induction n with
    | zero =>
      intro rest h
      have : rest = [] := List.length_eq_zero.mp (Nat.le_zero.mp h)
      subst this
      rw [string_path.fragments_unfold]
      simp [string_path.empty, path_segments]
    | succ n ih =>
      intro rest h
      rw [string_path.fragments_unfold]
      cases rest with
      | nil => simp [string_path.empty, path_segments]
      | cons c cs =>
        have hlt := drop_sep_length_lt sep c cs
        rw [path_segments_cons, string_path.reduce_eq]
        simp only [string_path.empty, List.isEmpty_cons, Bool.false_eq_true, if_false,
          List.map_cons]
        rw [ih _ (by omega)]
  exact key _ rest le_rfl

theorem ptree.walk_path_eq (t : ptree) (sep : Char) (rest : List Char) :
    t.walk_path ⟨rest, sep⟩ =
      .ok (t.walk_segments ((path_segments sep rest).map String.mk)) := by
  have key : ∀ n (rest : List Char) (t : ptree), rest.length ≤ n →
      t.walk_path ⟨rest, sep⟩ =
        .ok (t.walk_segments ((path_segments sep rest).map String.mk)) := by
    intro n
    induction n with
    | zero =>
      intro rest t h
      have : rest = [] := List.length_eq_zero.mp (Nat.le_zero.mp h)
      subst this
      rw [ptree.walk_path_unfold]
      simp [string_path.empty, path_segments, ptree.walk_segments]
    | succ n ih =>
      intro rest t h
      rw [ptree.walk_path_unfold]
      cases rest with
      | nil => simp [string_path.empty, path_segments, ptree.walk_segments]
      | cons c cs =>
        have hlt := drop_sep_length_lt sep c cs
        rw [path_segments_cons, string_path.reduce_eq]
        simp only [string_path.empty, List.isEmpty_cons, Bool.false_eq_true, if_false,
          List.map_cons, ptree.walk_segments]
        cases hf : t.find ⟨(c :: cs).takeWhile (fun c => c != sep)⟩ with
        | none => rfl
        | some el =>
          simp only []
          rw [ih _ _ (by simp only [List.length_cons] at h hlt; omega)]
  exact key _ rest t le_rfl

theorem FileBackend.getString_eq (b : FileBackend) (path : String) :
    b.getString path =
      .ok ((b.mPropertyTree.walk_segments
        ((path_segments b.mSeparator path.data).map String.mk)).map ptree.data) := by
  simp only [FileBackend.getString, ptree.get_optional, ptree.get_child_optional,
    string_path.ofString, ptree.walk_path_eq]
  cases b.mPropertyTree.walk_segments ((path_segments b.mSeparator path.data).map String.mk) <;>
    simp [ptree.get_value_optional, id_translator_get_value]

/-! ## The loader -/

theorem ends_with_iff (input test : String) :
    ends_with input test = true ↔ ∃ pre : String, input = pre ++ test := by
  unfold ends_with
  rw [List.isSuffixOf_iff_suffix]
  constructor
  · rintro ⟨t, ht⟩
    exact ⟨⟨t⟩, String.ext (by simp [ht])⟩
  · rintro ⟨pre, rfl⟩
    exact ⟨pre.data, by simp⟩

theorem string_length_zero_iff (s : String) : s.length = 0 ↔ s = "" := by
  constructor
  · intro h
    apply String.ext
    exact List.length_eq_zero.mp h
  · rintro rfl; rfl

theorem read_ini_stream_thrown (content : String) (pt pt0 : ptree) :
    (read_ini_stream content pt).2 = (read_ini_stream content pt0).2 := by
  unfold read_ini_stream
  cases read_ini_loop ini_locals.init 0 (getlines content.data) <;> rfl

theorem read_ini_stream_error (content : String) (pt : ptree) (e : ini_parser_error)
    (h : (read_ini_stream content pt).2 = some e) : (read_ini_stream content pt).1 = pt := by
  unfold read_ini_stream at *
  cases hl : read_ini_loop ini_locals.init 0 (getlines content.data) with
  | error e1 => rfl
  | ok st => rw [hl] at h; simp at h

theorem read_ini_stream_ok (content : String) (pt pt0 : ptree)
    (h : (read_ini_stream content pt).2 = none) :
    (read_ini_stream content pt).1 = (read_ini_stream content pt0).1 := by
  unfold read_ini_stream at *
  cases hl : read_ini_loop ini_locals.init 0 (getlines content.data) with
  | error e1 => rw [hl] at h; simp at h
  | ok st => rfl

theorem read_ini_of_none (fs : String → Option String) (f : String) (pt : ptree)
    (hf : fs f = none) :
    read_ini fs f pt = (pt, some ⟨"cannot open file", f, 0⟩) := by
  simp only [read_ini, hf]

theorem read_ini_of_some (fs : String → Option String) (f : String) (pt : ptree)
    (content : String) (hf : fs f = some content) :
    read_ini fs f pt =
      ((read_ini_stream content pt).1,
        (read_ini_stream content pt).2.map (fun e => ⟨e.message, f, e.line⟩)) := by
  simp only [read_ini, hf]
  rcases read_ini_stream content pt with ⟨a, _ | e⟩ <;> rfl

theorem read_ini_thrown (fs : String → Option String) (f : String) (pt pt0 : ptree) :
    (read_ini fs f pt).2 = (read_ini fs f pt0).2 := by
  cases hf : fs f with
  | none => simp only [read_ini_of_none fs f _ hf]
  | some content =>
    simp only [read_ini_of_some fs f _ content hf, read_ini_stream_thrown content pt pt0]

theorem read_ini_error (fs : String → Option String) (f : String) (pt : ptree)
    (e : ini_parser_error) (h : (read_ini fs f pt).2 = some e) :
    (read_ini fs f pt).1 = pt ∧ e.filename = f := by
  cases hf : fs f with
  | none =>
    rw [read_ini_of_none fs f _ hf] at h ⊢
    simp only [Option.some.injEq] at h
    subst h
    exact ⟨rfl, rfl⟩
  | some content =>
    rw [read_ini_of_some fs f _ content hf] at h ⊢
    simp only [Option.map_eq_some'] at h
    obtain ⟨e1, he1, rfl⟩ := h
    exact ⟨read_ini_stream_error content pt e1 he1, rfl⟩

theorem read_ini_ok (fs : String → Option String) (f : String) (pt pt0 : ptree)
    (h : (read_ini fs f pt).2 = none) : (read_ini fs f pt).1 = (read_ini fs f pt0).1 := by
  cases hf : fs f with
  | none => rw [read_ini_of_none fs f _ hf] at h; simp at h
  | some content =>
    rw [read_ini_of_some fs f _ content hf] at h ⊢
    rw [read_ini_of_some fs f _ content hf]
    simp only [Option.map_eq_none'] at h
    exact read_ini_stream_ok content pt pt0 h

/-- What `loadConfigFile` does, by cases on the locator. -/
theorem loadConfigFile_cases (fs : String → Option String) (filePath : String) (pt : ptree) :
    (filePath = "" ∧ loadConfigFile fs filePath pt = ⟨pt, some InvalidLocator, []⟩) ∨
    (filePath ≠ "" ∧ ¬ has_registered_suffix filePath ∧
      loadConfigFile fs filePath pt = ⟨pt, some UnsupportedFormat, []⟩) ∨
    (filePath ≠ "" ∧ has_registered_suffix filePath ∧
      loadConfigFile fs filePath pt =
        ⟨(read_ini fs filePath pt).1,
          (read_ini fs filePath pt).2.map (fun perr => ParseError (parse_error_text perr)),
          [filePath]⟩) := by
  by_cases h0 : filePath = ""
  · left
    refine ⟨h0, ?_⟩
    subst h0
    rfl
  · right
    have hlen : ¬ filePath.length = 0 := fun h => h0 ((string_length_zero_iff _).mp h)
    have hini := ends_with_iff filePath ".ini"
    have hcfg := ends_with_iff filePath ".cfg"
    unfold loadConfigFile
    rw [if_neg hlen]
    by_cases h1 : ends_with filePath ".ini" = true
    · right
      refine ⟨h0, Or.inl (hini.mp h1), ?_⟩
      simp only [loadConfigFile_loop, h1, if_true]
      rcases read_ini fs filePath pt with ⟨a, _ | e⟩ <;> rfl
    · by_cases h2 : ends_with filePath ".cfg" = true
      · right
        refine ⟨h0, Or.inr (hcfg.mp h2), ?_⟩
        simp only [loadConfigFile_loop, h1, h2, if_true]
        rcases read_ini fs filePath pt with ⟨a, _ | e⟩ <;> simp [ParseError]
      · left
        refine ⟨h0, ?_, ?_⟩
        · rintro (h | h)
          · exact h1 (hini.mpr h)
          · exact h2 (hcfg.mpr h)
        · simp only [loadConfigFile_loop, h1, h2]
          rfl

theorem loadConfigFile_error_pt (fs : String → Option String) (filePath : String) (pt : ptree)
    (e : Thrown) (h : (loadConfigFile fs filePath pt).thrown = some e) :
    (loadConfigFile fs filePath pt).pt = pt := by
  rcases loadConfigFile_cases fs filePath pt with ⟨_, h1⟩ | ⟨_, _, h1⟩ | ⟨_, _, h1⟩
  · rw [h1]
  · rw [h1]
  · rw [h1] at h ⊢
    simp only [Option.map_eq_some'] at h
    obtain ⟨perr, hp, _⟩ := h
    exact (read_ini_error fs filePath pt perr hp).1

/-! ## Segments and the split of the path -/

theorem construct_error_iff (fs : String → Option String) (filePath : String) (e : Thrown) :
    construct fs filePath = .error e ↔
      (loadConfigFile fs filePath (ptree.mk "" [])).thrown = some e := by
  unfold construct
  cases h : (loadConfigFile fs filePath (ptree.mk "" [])).thrown <;> simp [h]

theorem construct_ok_iff (fs : String → Option String) (filePath : String) (b : FileBackend) :
    construct fs filePath = .ok b ↔
      (loadConfigFile fs filePath (ptree.mk "" [])).thrown = none ∧
      b = ⟨filePath, (loadConfigFile fs filePath (ptree.mk "" [])).pt, defaultSeparator⟩ := by
  unfold construct
  cases h : (loadConfigFile fs filePath (ptree.mk "" [])).thrown <;> simp [h, eq_comm]

theorem walk_segments_stops (t : ptree) (segs : List String) (i : Nat) (s : String) (n : ptree)
    (hs : segs[i]? = some s) (hw : t.walk_segments (segs.take i) = some n)
    (hf : n.find s = none) : t.walk_segments segs = none := by
  induction segs generalizing t i with
  | nil => simp at hs
  | cons x xs ih =>
    cases i with
    | zero =>
      simp only [List.take_zero, ptree.walk_segments, Option.some.injEq] at hw
      simp only [List.getElem?_cons_zero, Option.some.injEq] at hs
      subst hw hs
      simp only [ptree.walk_segments, hf]
    | succ j =>
      simp only [List.take_succ_cons, ptree.walk_segments] at hw
      simp only [List.getElem?_cons_succ] at hs
      simp only [ptree.walk_segments]
      cases hx : t.find x with
      | none => rfl
      | some el =>
        rw [hx] at hw
        exact ih el j hs hw

theorem split_at_ne_nil (sep : Char) (s : List Char) : split_at sep s ≠ [] := by
  cases s with
  | nil => simp [split_at]
  | cons c cs =>
    unfold split_at
    split
    · simp
    · split <;> simp

theorem path_segments_eq_split_chars (sep : Char) (s : List Char) :
    path_segments sep s =
      if (split_at sep s).getLast? = some [] then (split_at sep s).dropLast
      else split_at sep s := by
  induction s with
  | nil => simp [path_segments, split_at]
  | cons c cs ih =>
    have hne := split_at_ne_nil sep cs
    obtain ⟨l, ls, hl⟩ := List.exists_cons_of_ne_nil hne
    by_cases h : c = sep
    · simp only [path_segments, split_at, h, if_true]
      rw [ih, hl, List.getLast?_cons_cons]
      split <;> simp
    · simp only [path_segments, split_at, h, if_false]
      rw [ih, hl]
      cases ls with
      | nil =>
        by_cases hl0 : l = []
        · simp [hl0]
        · simp [hl0]
      | cons m ms =>
        simp only [List.getLast?_cons_cons]
        by_cases hm : (m :: ms).getLast? = some []
        · simp [hm]
        · simp [hm]

theorem drop_trailing_empty_map (l : List (List Char)) :
    drop_trailing_empty (l.map String.mk) =
      (if l.getLast? = some [] then l.dropLast else l).map String.mk := by
  unfold drop_trailing_empty
  have h : ((l.map String.mk).getLast? = some "") ↔ (l.getLast? = some []) := by
    rw [List.getLast?_map]
    cases l.getLast? with
    | none => simp
    | some x =>
      simp only [Option.map_some', Option.some.injEq]
      constructor
      · intro hx
        have := congrArg String.data hx
        simpa using this
      · rintro rfl; rfl
  by_cases hc : l.getLast? = some []
  · rw [if_pos hc, if_pos (h.mpr hc), List.map_dropLast]
  · rw [if_neg hc, if_neg (fun hh => hc (h.mp hh))]

theorem path_segments_eq_split (sep : Char) (s : List Char) :
    (path_segments sep s).map String.mk =
      drop_trailing_empty ((split_at sep s).map String.mk) := by
  rw [drop_trailing_empty_map, path_segments_eq_split_chars]

theorem fragments_eq_split (path : String) (sep : Char) :
    (string_path.ofString path sep).fragments = drop_trailing_empty (spec_split sep path) := by
  rw [string_path.ofString, string_path.fragments_eq, path_segments_eq_split]
  rfl

theorem getString_eq_fragments (b : FileBackend) (path : String) :
    b.getString path =
      .ok ((b.mPropertyTree.walk_segments
        (string_path.ofString path b.mSeparator).fragments).map ptree.data) := by
  rw [FileBackend.getString_eq, string_path.ofString, string_path.fragments_eq]

theorem getString_path_segments (b : FileBackend) (path : String) (segs : List String)
    (h : (path_segments b.mSeparator path.data).map String.mk = segs) :
    b.getString path = .ok ((b.mPropertyTree.walk_segments segs).map ptree.data) := by
  rw [FileBackend.getString_eq, h]

/-! ## Claims on the backend operations -/

/-- C3. `putString` always throws the `UnsupportedOperation` exception, whatever
the state, the path and the value, and leaves the locator and the tree as they
were, so every later `getString` answers as before. -/
theorem C3_putString_unsupported (b : FileBackend) (path value : String) :
    (b.putString path value).2 = some UnsupportedOperation ∧
    (b.putString path value).1 = b ∧
    (∀ p : String, (b.putString path value).1.getString p = b.getString p) ∧
    UnsupportedOperation ≠ InvalidLocator ∧ UnsupportedOperation ≠ UnsupportedFormat ∧
    (∀ text : String, UnsupportedOperation ≠ ParseError text) := by
  refine ⟨rfl, rfl, fun _ => rfl, by decide, by decide, ?_⟩
  intro text h
  simp [UnsupportedOperation, ParseError] at h

theorem drop_trailing_empty_keeps (segs : List String) (i : Nat) (s : String)
    (hs : segs[i]? = some s) (hlast : ¬ (s = "" ∧ i + 1 = segs.length)) :
    (drop_trailing_empty segs)[i]? = some s ∧
    (drop_trailing_empty segs).take i = segs.take i := by
  unfold drop_trailing_empty
  by_cases hl : segs.getLast? = some ""
  · rw [if_pos hl]
    obtain ⟨hi, _⟩ := List.getElem?_eq_some.mp hs
    have hlt : i < segs.length - 1 := by
      by_contra hge
      have hi1 : i = segs.length - 1 := by omega
      have hs2 : s = "" := by
        rw [List.getLast?_eq_getElem?, ← hi1, hs] at hl
        exact Option.some.inj hl
      exact hlast ⟨hs2, by omega⟩
    refine ⟨?_, ?_⟩
    · rw [List.getElem?_dropLast, if_pos hlt, hs]
    · rw [List.dropLast_eq_take, List.take_take, Nat.min_eq_left (Nat.le_of_lt hlt)]
  · rw [if_neg hl]
    exact ⟨hs, rfl⟩

/-- C2, amended. `getString` never throws, for any tree, separator and path; and it is
absent whenever a segment of the path (a piece of the full split at the
separator), other than an empty last segment, has no child of that name at
the node the walk of the segments before it has reached from the root. -/
theorem C2_getString_total_absent_on_missing_segment (b : FileBackend) (path : String) :
    (∃ r : Option String, b.getString path = .ok r) ∧
    (∀ (i : Nat) (s : String) (n : ptree),
      (spec_split b.mSeparator path)[i]? = some s →
      ¬ (s = "" ∧ i + 1 = (spec_split b.mSeparator path).length) →
      b.mPropertyTree.walk_segments ((spec_split b.mSeparator path).take i) = some n →
      n.find s = none →
      b.getString path = .ok none) := by
  refine ⟨⟨_, getString_eq_fragments b path⟩, ?_⟩
  intro i s n hs hlast hw hf
  obtain ⟨h1, h2⟩ := drop_trailing_empty_keeps _ i s hs hlast
  rw [getString_eq_fragments, fragments_eq_split,
    walk_segments_stops _ _ i s n h1 (by rw [h2]; exact hw) hf]
  rfl

/-- C2, at the scenario: `sec.missing` is absent, the segment `missing` having
no child under `sec`; and `.key` is absent, the empty first segment having no
child under the root. -/
theorem C2_witness :
    scenario_backend.getString "sec.missing" = .ok none ∧
    scenario_backend.getString ".key" = .ok none :=
  ⟨(C2_getString_total_absent_on_missing_segment scenario_backend "sec.missing").2 1 "missing"
      (.mk "" [("key", .mk "value1" [])]) (by decide) (by decide) rfl rfl,
   (C2_getString_total_absent_on_missing_segment scenario_backend ".key").2 0 ""
      scenario_tree (by decide) (by decide) rfl rfl⟩

/-- C2 as stated fails: with the files of the scenario, the path `sec.only_old.` has the
segments `sec`, `only_old` and an empty last segment; the first two resolve to
the key `only_old`, which has no child with the empty name, and `getString`
returns the key's value `x`, not absent. -/
theorem C2_counterexample :
    construct scenario_fs "old.cfg" = .ok scenario_old_backend ∧
    spec_split scenario_old_backend.mSeparator "sec.only_old." = ["sec", "only_old", ""] ∧
    scenario_old_backend.mPropertyTree.walk_segments ["sec", "only_old"]
      = some (.mk "x" []) ∧
    (ptree.mk "x" []).find "" = none ∧
    scenario_old_backend.getString "sec.only_old." = .ok (some "x") ∧
    scenario_old_backend.getString "sec.only_old." ≠ .ok none := by
  have h : scenario_old_backend.getString "sec.only_old." = .ok (some "x") :=
    getString_path_segments _ _ ["sec", "only_old"] (by decide)
  refine ⟨rfl, by decide, rfl, rfl, h, ?_⟩
  rw [h]
  simp

theorem ParseError_ne (text : String) :
    ParseError text ≠ InvalidLocator ∧ ParseError text ≠ UnsupportedFormat := by
  constructor <;> intro h <;> simp [ParseError, InvalidLocator, UnsupportedFormat] at h

theorem map_ParseError_ne (o : Option ini_parser_error) :
    o.map (fun perr => ParseError (parse_error_text perr)) ≠ some InvalidLocator ∧
    o.map (fun perr => ParseError (parse_error_text perr)) ≠ some UnsupportedFormat := by
  cases o with
  | none => simp
  | some e =>
    simp only [Option.map_some', ne_eq, Option.some.injEq]
    exact ParseError_ne _

/-- C4. The outcome of `loadConfigFile` by the locator alone: `InvalidLocator`
exactly for the empty locator; `UnsupportedFormat` exactly for a non-empty
locator that ends with neither `.ini` nor `.cfg`; in both cases `read_ini` is
not called and the tree is untouched; otherwise `read_ini` is called exactly
once, on that locator, and decides the outcome. The two failures are different
exceptions. The constructor and `setPrefix` fail in the same cases. -/
theorem C4_load_outcome_by_locator (fs : String → Option String) (filePath : String)
    (pt : ptree) (b : FileBackend) :
    ((loadConfigFile fs filePath pt).thrown = some InvalidLocator ↔ filePath = "") ∧
    ((loadConfigFile fs filePath pt).thrown = some UnsupportedFormat ↔
      (filePath ≠ "" ∧ ¬ has_registered_suffix filePath)) ∧
    ((filePath = "" ∨ ¬ has_registered_suffix filePath) →
      (loadConfigFile fs filePath pt).read_ini_calls = [] ∧
      (loadConfigFile fs filePath pt).pt = pt) ∧
    ((filePath ≠ "" ∧ has_registered_suffix filePath) →
      (loadConfigFile fs filePath pt).read_ini_calls = [filePath] ∧
      (loadConfigFile fs filePath pt).pt = (read_ini fs filePath pt).1 ∧
      (loadConfigFile fs filePath pt).thrown =
        (read_ini fs filePath pt).2.map (fun perr => ParseError (parse_error_text perr))) ∧
    InvalidLocator ≠ UnsupportedFormat ∧
    (construct fs filePath = .error InvalidLocator ↔ filePath = "") ∧
    (construct fs filePath = .error UnsupportedFormat ↔
      (filePath ≠ "" ∧ ¬ has_registered_suffix filePath)) ∧
    ((b.setPrefix fs filePath).2 = some InvalidLocator ↔ filePath = "") ∧
    ((b.setPrefix fs filePath).2 = some UnsupportedFormat ↔
      (filePath ≠ "" ∧ ¬ has_registered_suffix filePath)) := by
  have hne : InvalidLocator ≠ UnsupportedFormat := by decide
  have key : ∀ pt : ptree,
      ((loadConfigFile fs filePath pt).thrown = some InvalidLocator ↔ filePath = "") ∧
      ((loadConfigFile fs filePath pt).thrown = some UnsupportedFormat ↔
        (filePath ≠ "" ∧ ¬ has_registered_suffix filePath)) := by
    intro pt
    rcases loadConfigFile_cases fs filePath pt with ⟨h0, h1⟩ | ⟨h0, hs, h1⟩ | ⟨h0, hs, h1⟩
    · rw [h1]
      exact ⟨⟨fun _ => h0, fun _ => rfl⟩,
        ⟨fun h => absurd (Option.some.inj h) hne, fun h => absurd h0 h.1⟩⟩
    · rw [h1]
      exact ⟨⟨fun h => absurd (Option.some.inj h).symm hne, fun h => absurd h h0⟩,
        ⟨fun _ => ⟨h0, hs⟩, fun _ => rfl⟩⟩
    · rw [h1]
      have hp := map_ParseError_ne (read_ini fs filePath pt).2
      exact ⟨⟨fun h => absurd h hp.1, fun h => absurd h h0⟩,
        ⟨fun h => absurd h hp.2, fun h => absurd hs h.2⟩⟩
  refine ⟨(key pt).1, (key pt).2, ?_, ?_, hne, ?_, ?_, (key _).1, (key _).2⟩
  · intro h
    rcases loadConfigFile_cases fs filePath pt with ⟨h0, h1⟩ | ⟨h0, hs, h1⟩ | ⟨h0, hs, h1⟩
    · rw [h1]; exact ⟨rfl, rfl⟩
    · rw [h1]; exact ⟨rfl, rfl⟩
    · rcases h with h | h
      · exact absurd h h0
      · exact absurd hs h
  · rintro ⟨h0, hs⟩
    rcases loadConfigFile_cases fs filePath pt with ⟨h0', h1⟩ | ⟨_, hs', h1⟩ | ⟨_, _, h1⟩
    · exact absurd h0' h0
    · exact absurd hs hs'
    · rw [h1]; exact ⟨rfl, rfl, rfl⟩
  · rw [construct_error_iff]; exact (key _).1
  · rw [construct_error_iff]; exact (key _).2

/-- C4, at the scenario: the empty locator, a locator with the suffix in capitals,
and a locator with a registered suffix. -/
theorem C4_witness :
    (loadConfigFile scenario_fs "" scenario_tree).thrown = some InvalidLocator ∧
    (loadConfigFile scenario_fs "a.INI" scenario_tree).thrown = some UnsupportedFormat ∧
    (loadConfigFile scenario_fs "a.INI" scenario_tree).read_ini_calls = [] ∧
    (loadConfigFile scenario_fs "b.ini" scenario_tree).read_ini_calls = ["b.ini"] :=
  have hno : ¬ has_registered_suffix "a.INI" := by
    rintro (h | h)
    · exact absurd ((ends_with_iff _ _).mpr h) (by decide)
    · exact absurd ((ends_with_iff _ _).mpr h) (by decide)
  ⟨(C4_load_outcome_by_locator scenario_fs "" scenario_tree scenario_backend).1.mpr rfl,
   (C4_load_outcome_by_locator scenario_fs "a.INI" scenario_tree scenario_backend).2.1.mpr
     ⟨by decide, hno⟩,
   ((C4_load_outcome_by_locator scenario_fs "a.INI" scenario_tree scenario_backend).2.2.1
     (Or.inr hno)).1,
   ((C4_load_outcome_by_locator scenario_fs "b.ini" scenario_tree scenario_backend).2.2.2.1
     ⟨by decide, Or.inl ⟨"b", by decide⟩⟩).1⟩

theorem setPrefix_thrown (fs : String → Option String) (b : FileBackend) (path : String) :
    (b.setPrefix fs path).2 = (loadConfigFile fs path b.mPropertyTree).thrown := rfl

/-- C5. When the load of the new locator fails (the locator is empty, or it has
no registered suffix, or `read_ini` reports an error; or `setPrefix` throws for
any reason), `setPrefix` throws and the tree and the separator are those
from before the call: `getString` answers every path as it did before. -/
theorem C5_setPrefix_failure_keeps_tree (fs : String → Option String) (b : FileBackend)
    (path : String)
    (h : path = "" ∨ ¬ has_registered_suffix path ∨
      (read_ini fs path b.mPropertyTree).2 ≠ none ∨ (b.setPrefix fs path).2 ≠ none) :
    (b.setPrefix fs path).2 ≠ none ∧
    (b.setPrefix fs path).1.mPropertyTree = b.mPropertyTree ∧
    (b.setPrefix fs path).1.mSeparator = b.mSeparator ∧
    (∀ p : String, (b.setPrefix fs path).1.getString p = b.getString p) := by
  have hfail : (b.setPrefix fs path).2 ≠ none := by
    rw [setPrefix_thrown]
    rcases loadConfigFile_cases fs path b.mPropertyTree with
      ⟨h0, h1⟩ | ⟨h0, hs, h1⟩ | ⟨h0, hs, h1⟩
    · rw [h1]; simp
    · rw [h1]; simp
    · rcases h with h | h | h | h
      · exact absurd h h0
      · exact absurd hs h
      · rw [h1]
        simpa using h
      · exact h
  have htree : (b.setPrefix fs path).1.mPropertyTree = b.mPropertyTree := by
    rw [setPrefix_thrown] at hfail
    obtain ⟨e, he⟩ := Option.ne_none_iff_exists'.mp hfail
    exact loadConfigFile_error_pt fs path b.mPropertyTree e he
  refine ⟨hfail, htree, rfl, ?_⟩
  intro p
  simp only [FileBackend.getString, htree]
  rfl

/-- C5, at the scenario: `setPrefix("broken.ini")` throws and `sec.key` still
resolves to `value1`, as before the call. -/
theorem C5_witness :
    (scenario_backend.setPrefix scenario_fs "broken.ini").2 ≠ none ∧
    scenario_backend.getString "sec.key" = .ok (some "value1") ∧
    (scenario_backend.setPrefix scenario_fs "broken.ini").1.getString "sec.key"
      = .ok (some "value1") :=
  have h := C5_setPrefix_failure_keeps_tree scenario_fs scenario_backend "broken.ini"
    (Or.inr (Or.inr (Or.inl (by decide))))
  have h0 : scenario_backend.getString "sec.key" = .ok (some "value1") :=
    getString_path_segments _ _ ["sec", "key"] (by decide)
  ⟨h.1, h0, (h.2.2.2 "sec.key").trans h0⟩

theorem loadConfigFile_ok_pt (fs : String → Option String) (filePath : String) (pt pt0 : ptree)
    (h : (loadConfigFile fs filePath pt).thrown = none) :
    (loadConfigFile fs filePath pt0).thrown = none ∧
    (loadConfigFile fs filePath pt).pt = (loadConfigFile fs filePath pt0).pt := by
  rcases loadConfigFile_cases fs filePath pt with ⟨h0, h1⟩ | ⟨h0, hs, h1⟩ | ⟨h0, hs, h1⟩
  · rw [h1] at h; simp at h
  · rw [h1] at h; simp at h
  · rcases loadConfigFile_cases fs filePath pt0 with ⟨h0', h2⟩ | ⟨_, hs', h2⟩ | ⟨_, _, h2⟩
    · exact absurd h0' h0
    · exact absurd hs hs'
    · rw [h1] at h ⊢
      rw [h2]
      simp only [Option.map_eq_none'] at h
      refine ⟨?_, read_ini_ok fs filePath pt pt0 h⟩
      simp only [Option.map_eq_none']
      rw [← read_ini_thrown fs filePath pt pt0]
      exact h

/-- C8. With a non-empty locator that has a registered suffix, an error of the
INI parser makes the load throw (constructor and `setPrefix` alike) the
`ParseError` text built from it: the parser's message and the file name (which
is the locator), followed by the line number exactly when that number is not
zero. That exception differs from `InvalidLocator` and `UnsupportedFormat`. -/
theorem C8_parse_error_wrapped (fs : String → Option String) (filePath : String) (pt : ptree)
    (perr : ini_parser_error) (h1 : filePath ≠ "") (h2 : has_registered_suffix filePath)
    (h3 : (read_ini fs filePath pt).2 = some perr) :
    (loadConfigFile fs filePath pt).thrown = some (ParseError (parse_error_text perr)) ∧
    construct fs filePath = .error (ParseError (parse_error_text perr)) ∧
    (∀ b : FileBackend, (b.setPrefix fs filePath).2 = some (ParseError (parse_error_text perr))) ∧
    perr.filename = filePath ∧
    (perr.line ≠ 0 → parse_error_text perr =
      perr.message ++ " in " ++ filePath ++ " line " ++ toString perr.line) ∧
    (perr.line = 0 → parse_error_text perr = perr.message ++ " " ++ filePath) ∧
    ParseError (parse_error_text perr) ≠ InvalidLocator ∧
    ParseError (parse_error_text perr) ≠ UnsupportedFormat := by
  have key : ∀ pt0 : ptree,
      (loadConfigFile fs filePath pt0).thrown = some (ParseError (parse_error_text perr)) := by
    intro pt0
    rcases loadConfigFile_cases fs filePath pt0 with ⟨h0, _⟩ | ⟨_, hs, _⟩ | ⟨_, _, h⟩
    · exact absurd h0 h1
    · exact absurd h2 hs
    · rw [h, read_ini_thrown fs filePath pt0 pt, h3]
      rfl
  have hfile := (read_ini_error fs filePath pt perr h3).2
  refine ⟨key pt, (construct_error_iff _ _ _).mpr (key _), fun b => key _, hfile, ?_, ?_,
    (ParseError_ne _).1, (ParseError_ne _).2⟩
  · intro hl
    simp only [parse_error_text, hl, ne_eq, not_false_eq_true, if_true, hfile]
  · intro hl
    simp only [parse_error_text, hl, ne_eq, not_true_eq_false, if_false, hfile]

/-- C8, at the scenario: `broken.ini` has a second line without `=`; a file that
does not exist has no line number. -/
theorem C8_witness :
    (loadConfigFile scenario_fs "broken.ini" (ptree.mk "" [])).thrown
      = some (ParseError "'=' character not found in line in broken.ini line 2") ∧
    (loadConfigFile scenario_fs "missing.cfg" (ptree.mk "" [])).thrown
      = some (ParseError "cannot open file missing.cfg") :=
  ⟨(C8_parse_error_wrapped scenario_fs "broken.ini" (ptree.mk "" [])
      ⟨"'=' character not found in line", "broken.ini", 2⟩ (by decide)
      (Or.inl ⟨"broken", by decide⟩) (by decide)).1,
   (C8_parse_error_wrapped scenario_fs "missing.cfg" (ptree.mk "" [])
      ⟨"cannot open file", "missing.cfg", 0⟩ (by decide)
      (Or.inr ⟨"missing", by decide⟩) (by decide)).1⟩

/-- C9, amended. The segments `getString` walks are the pieces of the path between
separators, empty pieces kept, except that an empty last piece is dropped (so
a trailing separator and the empty path add no empty segment); `getString` is
the data of the node that walk reaches from the root, absent when a segment
has no child. When the last piece is not empty, the walk is over the full
split. -/
theorem C9_getString_walks_split_without_trailing_empty (b : FileBackend) (path : String) :
    (string_path.ofString path b.mSeparator).fragments
      = drop_trailing_empty (spec_split b.mSeparator path) ∧
    b.getString path = .ok ((b.mPropertyTree.walk_segments
      (drop_trailing_empty (spec_split b.mSeparator path))).map ptree.data) ∧
    ((spec_split b.mSeparator path).getLast? ≠ some "" →
      b.getString path = .ok ((b.mPropertyTree.walk_segments
        (spec_split b.mSeparator path)).map ptree.data)) := by
  have h := fragments_eq_split path b.mSeparator
  refine ⟨h, ?_, ?_⟩
  · rw [getString_eq_fragments, h]
  · intro hl
    rw [getString_eq_fragments, h, drop_trailing_empty, if_neg hl]

/-- C9, at the scenario: consecutive and leading separators give an empty segment,
a trailing separator and the empty path give none. -/
theorem C9_witness :
    (string_path.ofString "a..b" scenario_backend.mSeparator).fragments = ["a", "", "b"] ∧
    (string_path.ofString ".a" scenario_backend.mSeparator).fragments = ["", "a"] ∧
    (string_path.ofString "sec." scenario_backend.mSeparator).fragments = ["sec"] ∧
    (string_path.ofString "" scenario_backend.mSeparator).fragments = [] :=
  ⟨(C9_getString_walks_split_without_trailing_empty scenario_backend "a..b").1.trans
      (by decide),
   (C9_getString_walks_split_without_trailing_empty scenario_backend ".a").1.trans
      (by decide),
   (C9_getString_walks_split_without_trailing_empty scenario_backend "sec.").1.trans
      (by decide),
   (C9_getString_walks_split_without_trailing_empty scenario_backend "").1.trans
      (by decide)⟩

/-- C9 as stated fails: with a trailing separator the full split of `sec.key.` ends
in an empty segment that has no child under `key`, yet `getString` returns
`value1`; and the empty path splits into one empty segment that has no child
under the root, yet `getString` returns the root's data. -/
theorem C9_counterexample :
    (spec_split '.' "sec.key." = ["sec", "key", ""] ∧
      (scenario_tree.walk_segments (spec_split '.' "sec.key.")).map ptree.data = none ∧
      scenario_backend.getString "sec.key." = .ok (some "value1")) ∧
    (spec_split '.' "" = [""] ∧
      (scenario_tree.walk_segments (spec_split '.' "")).map ptree.data = none ∧
      scenario_backend.getString "" = .ok (some "")) := by
  refine ⟨⟨by decide, by decide, ?_⟩, ⟨by decide, by decide, ?_⟩⟩
  · exact getString_path_segments _ _ ["sec", "key"] (by decide)
  · exact getString_path_segments _ _ [] (by decide)

theorem construct_locator_matches_tree (fs : String → Option String) (path : String)
    (fresh : FileBackend) (hc : construct fs path = .ok fresh) :
    fresh.mFilePath = path ∧ fresh.locator_matches_tree fs := by
  obtain ⟨h1, h2⟩ := (construct_ok_iff _ _ _).mp hc
  subst h2
  refine ⟨rfl, fun pt => ?_⟩
  have := loadConfigFile_ok_pt fs path _ pt h1
  exact ⟨this.1, this.2.symm⟩

theorem setPrefix_locator_matches_tree (fs : String → Option String) (b : FileBackend)
    (path : String) (hs : (b.setPrefix fs path).2 = none) :
    (b.setPrefix fs path).1.locator_matches_tree fs := by
  rw [setPrefix_thrown] at hs
  intro pt
  have := loadConfigFile_ok_pt fs path _ pt hs
  exact ⟨this.1, this.2.symm⟩

/-- C10, amended. In every state in which the last load succeeded (after a successful
constructor call or a successful `setPrefix` call from any earlier state, and
after the `putString` calls that follow; `getString` has no effect on the
state), the stored locator is the locator the stored tree was loaded from.
A `setPrefix` that fails leaves the tree as it was, and `putString` leaves
the whole state as it was. -/
theorem C10_locator_matches_tree_after_success (fs : String → Option String)
    (b : FileBackend) (hb : b.LoadSucceeded fs) :
    b.locator_matches_tree fs ∧
    (∀ path : String, (b.setPrefix fs path).2 ≠ none →
      (b.setPrefix fs path).1.mPropertyTree = b.mPropertyTree) ∧
    (∀ p v : String, (b.putString p v).1 = b) := by
  refine ⟨?_, ?_, fun _ _ => rfl⟩
  · induction hb with
    | construct filePath b hc => exact (construct_locator_matches_tree fs filePath b hc).2
    | setPrefix b path hs => exact setPrefix_locator_matches_tree fs b path hs
    | putString b path value _ ih => exact ih
    | setSeparator b c _ ih => exact ih
  · intro path hs
    rw [setPrefix_thrown] at hs
    obtain ⟨e, he⟩ := Option.ne_none_iff_exists'.mp hs
    exact loadConfigFile_error_pt fs path b.mPropertyTree e he

/-- C10, at the scenario: after `FileBackend("a.ini")`, a failed `setPrefix("broken.ini")`
and then a successful `setPrefix("b.ini")`, the stored locator is `b.ini` and
it is the locator the tree was loaded from. -/
theorem C10_witness :
    ((scenario_backend.setPrefix scenario_fs "broken.ini").1.setPrefix scenario_fs "b.ini").1.mFilePath
      = "b.ini" ∧
    ((scenario_backend.setPrefix scenario_fs "broken.ini").1.setPrefix scenario_fs
      "b.ini").1.locator_matches_tree scenario_fs :=
  ⟨rfl, (C10_locator_matches_tree_after_success scenario_fs _
    (FileBackend.LoadSucceeded.setPrefix
      (scenario_backend.setPrefix scenario_fs "broken.ini").1 "b.ini" (by decide))).1⟩

/-- C10 as stated fails: after `FileBackend("a.ini")`, `setPrefix("broken.ini")` throws
and the stored locator is `broken.ini`, not `a.ini`, while the tree is still
the one of `a.ini`; loading the stored locator does not give the stored
tree. -/
theorem C10_counterexample :
    construct scenario_fs "a.ini" = .ok scenario_backend ∧
    scenario_backend.locator_matches_tree scenario_fs ∧
    (scenario_backend.setPrefix scenario_fs "broken.ini").2 ≠ none ∧
    (scenario_backend.setPrefix scenario_fs "broken.ini").1.mFilePath = "broken.ini" ∧
    (scenario_backend.setPrefix scenario_fs "broken.ini").1.mFilePath
      ≠ scenario_backend.mFilePath ∧
    (scenario_backend.setPrefix scenario_fs "broken.ini").1.getString "sec.key"
      = .ok (some "value1") ∧
    ¬ (scenario_backend.setPrefix scenario_fs "broken.ini").1.locator_matches_tree
      scenario_fs := by
  refine ⟨rfl, ?_, by decide, rfl, by decide, ?_, ?_⟩
  · exact (construct_locator_matches_tree scenario_fs "a.ini" scenario_backend rfl).2
  · exact getString_path_segments _ _ ["sec", "key"] (by decide)
  · intro h
    have := (h (ptree.mk "" [])).1
    revert this
    decide

/-! ## The shape of loaded trees -/

theorem assoc_find_mem (key : String) (l : List (String × ptree)) (v : ptree)
    (h : ptree.assoc_find key l = some v) : (key, v) ∈ l := by
  induction l with
  | nil => simp [ptree.assoc_find] at h
  | cons kv rest ih =>
    obtain ⟨k, w⟩ := kv
    unfold ptree.assoc_find at h
    split at h
    · rename_i hk
      simp only [Option.some.injEq] at h
      subst hk h
      exact List.mem_cons_self _ _
    · exact List.mem_cons_of_mem _ (ih h)

theorem ini_locals.drop_empty_section_shaped (st : ini_locals) (h : st.shaped) :
    ∀ kv ∈ st.drop_empty_section, kv.2.ini_child := by
  obtain ⟨lc, sn⟩ := st
  obtain ⟨h1, h2⟩ := h
  cases sn with
  | none => exact h1
  | some s =>
    obtain ⟨name, node⟩ := s
    simp only [ini_locals.drop_empty_section]
    split
    · exact h1
    · intro kv hkv
      rcases List.mem_append.mp hkv with hm | hm
      · exact h1 kv hm
      · simp only [List.mem_singleton] at hm
        subst hm
        exact Or.inr (h2 _ rfl)

theorem read_ini_line_shaped (st st1 : ini_locals) (n : Nat) (raw : List Char)
    (h : st.shaped) (hr : read_ini_line st n raw = .ok st1) : st1.shaped := by
  unfold read_ini_line at hr
  simp only [] at hr
  split at hr
  · simp only [Except.ok.injEq] at hr; subst hr; exact h
  · split at hr
    · simp only [Except.ok.injEq] at hr; subst hr; exact h
    · split at hr
      · split at hr
        · simp at hr
        · split at hr
          · simp at hr
          · simp only [Except.ok.injEq] at hr
            subst hr
            refine ⟨ini_locals.drop_empty_section_shaped st h, ?_⟩
            intro s hs
            simp only [Option.some.injEq] at hs
            subst hs
            exact ⟨rfl, by simp [ptree.children]⟩
      · split at hr
        · simp at hr
        · split at hr
          · simp at hr
          · split at hr
            · rename_i name node hsn
              split at hr
              · simp at hr
              · simp only [Except.ok.injEq] at hr
                subst hr
                refine ⟨h.1, ?_⟩
                intro s hs
                simp only [Option.some.injEq] at hs
                subst hs
                have hn := h.2 _ hsn
                refine ⟨by simpa [ptree.push_back, ptree.data] using hn.1, ?_⟩
                intro kv hkv
                simp only [ptree.push_back, ptree.children, List.mem_append,
                  List.mem_singleton] at hkv
                rcases hkv with hm | hm
                · exact hn.2 kv hm
                · subst hm; rfl
            · rename_i hsn
              split at hr
              · simp at hr
              · simp only [Except.ok.injEq] at hr
                subst hr
                refine ⟨?_, ?_⟩
                · intro kv hkv
                  simp only [List.mem_append, List.mem_singleton] at hkv
                  rcases hkv with hm | hm
                  · exact h.1 kv hm
                  · subst hm; exact Or.inl rfl
                · intro s hs
                  simp at hs

theorem read_ini_loop_shaped (lines : List (List Char)) (st st1 : ini_locals) (n : Nat)
    (h : st.shaped) (hr : read_ini_loop st n lines = .ok st1) : st1.shaped := by
  induction lines generalizing st n with
  | nil =>
    simp only [read_ini_loop, Except.ok.injEq] at hr
    subst hr; exact h
  | cons raw more ih =>
    simp only [read_ini_loop] at hr
    cases hl : read_ini_line st (n + 1) raw with
    | error e => rw [hl] at hr; simp at hr
    | ok st2 =>
      rw [hl] at hr
      exact ih st2 (n + 1) (read_ini_line_shaped st st2 (n + 1) raw h hl) hr

theorem read_ini_stream_shaped (content : String) (pt : ptree) (h : pt.ini_shaped) :
    (read_ini_stream content pt).1.ini_shaped := by
  unfold read_ini_stream
  cases hl : read_ini_loop ini_locals.init 0 (getlines content.data) with
  | error e => exact h
  | ok st =>
    have hs : ini_locals.init.shaped := ⟨by simp [ini_locals.init], by simp [ini_locals.init]⟩
    exact ⟨rfl, ini_locals.drop_empty_section_shaped st (read_ini_loop_shaped _ _ _ _ hs hl)⟩

theorem read_ini_shaped (fs : String → Option String) (f : String) (pt : ptree)
    (h : pt.ini_shaped) : (read_ini fs f pt).1.ini_shaped := by
  cases hf : fs f with
  | none => rw [read_ini_of_none fs f _ hf]; exact h
  | some content =>
    rw [read_ini_of_some fs f _ content hf]
    exact read_ini_stream_shaped content pt h

theorem loadConfigFile_shaped (fs : String → Option String) (f : String) (pt : ptree)
    (h : pt.ini_shaped) : (loadConfigFile fs f pt).pt.ini_shaped := by
  rcases loadConfigFile_cases fs f pt with ⟨_, h1⟩ | ⟨_, _, h1⟩ | ⟨_, _, h1⟩
  · rw [h1]; exact h
  · rw [h1]; exact h
  · rw [h1]; exact read_ini_shaped fs f pt h

theorem Loaded_shaped (b : FileBackend) (h : b.Loaded) : b.mPropertyTree.ini_shaped := by
  induction h with
  | construct fs filePath b hc =>
    obtain ⟨_, h2⟩ := (construct_ok_iff _ _ _).mp hc
    subst h2
    exact loadConfigFile_shaped fs filePath _ ⟨rfl, by simp [ptree.children]⟩
  | setPrefix fs b path _ ih => exact loadConfigFile_shaped fs path _ ih
  | putString b path value _ ih => exact ih
  | setSeparator b c _ ih => exact ih

theorem find_of_no_children (t : ptree) (s : String) (h : t.children = []) :
    t.find s = none := by
  simp [ptree.find, h, ptree.assoc_find]

theorem ini_shaped_internal_data (t : ptree) (h : t.ini_shaped) (segs : List String) (n : ptree)
    (hw : t.walk_segments segs = some n) (hn : n.empty = false) : n.data = "" := by
  have hne : n.children ≠ [] := by
    intro hc
    simp [ptree.empty, hc] at hn
  cases segs with
  | nil =>
    simp only [ptree.walk_segments, Option.some.injEq] at hw
    subst hw; exact h.1
  | cons a rest =>
    simp only [ptree.walk_segments] at hw
    cases ha : t.find a with
    | none => rw [ha] at hw; simp at hw
    | some c =>
      rw [ha] at hw
      simp only [] at hw
      have hc := h.2 _ (assoc_find_mem a _ c ha)
      cases rest with
      | nil =>
        simp only [ptree.walk_segments, Option.some.injEq] at hw
        subst hw
        rcases hc with hc | hc
        · exact absurd hc hne
        · exact hc.1
      | cons b rest2 =>
        simp only [ptree.walk_segments] at hw
        rcases hc with hc | hc
        · rw [find_of_no_children c b hc] at hw; simp at hw
        · cases hb : c.find b with
          | none => rw [hb] at hw; simp at hw
          | some g =>
            rw [hb] at hw
            simp only [] at hw
            have hg := hc.2 _ (assoc_find_mem b _ g hb)
            cases rest2 with
            | nil =>
              simp only [ptree.walk_segments, Option.some.injEq] at hw
              subst hw
              exact absurd hg hne
            | cons x rest3 =>
              simp only [ptree.walk_segments] at hw
              rw [find_of_no_children g x hg] at hw
              simp at hw

/-- C1, amended. In every loaded backend, for every path that resolves to a node
with children, `getString` returns a value, the node's data, which is the
empty string: it is present, not absent. -/
theorem C1_internal_node_gives_empty_string (b : FileBackend) (hb : b.Loaded) (path : String)
    (n : ptree)
    (hres : b.mPropertyTree.walk_path (string_path.ofString path b.mSeparator) = .ok (some n))
    (hint : n.empty = false) :
    b.getString path = .ok (some "") ∧ n.data = "" := by
  have hw : b.mPropertyTree.walk_segments
      ((path_segments b.mSeparator path.data).map String.mk) = some n := by
    rw [string_path.ofString, ptree.walk_path_eq] at hres
    exact Except.ok.inj hres
  have hd := ini_shaped_internal_data _ (Loaded_shaped b hb) _ n hw hint
  refine ⟨?_, hd⟩
  rw [FileBackend.getString_eq, hw, ← hd]
  rfl

theorem scenario_loaded : scenario_backend.Loaded :=
  FileBackend.Loaded.construct scenario_fs "a.ini" scenario_backend rfl

/-- C1, at the scenario: `sec` resolves to the section node and `getString("sec")`
is the empty string. -/
theorem C1_witness : scenario_backend.getString "sec" = .ok (some "") :=
  (C1_internal_node_gives_empty_string scenario_backend scenario_loaded "sec"
    (.mk "" [("key", .mk "value1" [])])
    (by rw [string_path.ofString, ptree.walk_path_eq]; rfl) rfl).1

/-- C1 as stated fails: in the scenario, `sec` resolves to a node that has a child,
and `getString("sec")` is a value (the empty string), not absent. -/
theorem C1_counterexample :
    construct scenario_fs "a.ini" = .ok scenario_backend ∧
    scenario_backend.mPropertyTree.walk_path
      (string_path.ofString "sec" scenario_backend.mSeparator)
      = .ok (some (.mk "" [("key", .mk "value1" [])])) ∧
    (ptree.mk "" [("key", .mk "value1" [])]).empty = false ∧
    scenario_backend.getString "sec" = .ok (some "") ∧
    scenario_backend.getString "sec" ≠ .ok none := by
  have h : scenario_backend.getString "sec" = .ok (some "") :=
    getString_path_segments _ _ ["sec"] (by decide)
  refine ⟨rfl, by rw [string_path.ofString, ptree.walk_path_eq]; rfl, rfl, h, ?_⟩
  rw [h]
  simp

/-! ## Lines of well-formed content -/

